import Mathlib

/-!
Verification of the doxygen comment relocator.

The repository holds two implementations of the same line-oriented
transformation:
* Design A (`doxygen_converter.py`): `DoxygenConverter.convert`,
  composed of `__parse_file` (pass 1, building a name-keyed table of
  captured comment blocks) and `__add_docstrings` (pass 2, inserting
  string-literal blocks after matching headers).
* Design B (`doxygen_converter/doxygen_converter.py`):
  `DoxygenConverter.complete_convert`, a single pass mutating the line
  list in place.

Lines are modelled as lists of characters, including the trailing
newline character, exactly as Python file iteration yields them.  The
regular expressions of the source are modelled by executable matching
functions with Python `re.match` semantics (anchored prefix match,
greedy repetition, `.` never matching a newline).  The imperative loops
are modelled by structural recursion; the two loops that can run over a
growing list take a fuel argument, and `none` marks fuel exhaustion.
Unhandled Python exceptions (a failed group subscript on a
non-matching line, an index past the end of the list) are modelled by
an explicit error value.
-/

namespace DoxConv

abbrev Line := List Char
abbrev Txt := List Char

/-- Python regex class `\s` restricted to the characters it matches in ASCII. -/
def isSpace (c : Char) : Bool :=
  if c = ' ' then true
  else if c = '\t' then true
  else if c = '\n' then true
  else if c = '\r' then true
  else if c = '\u000B' then true
  else if c = '\u000C' then true
  else false

/-- Maximal munch of `\s*`, as in the leading group of the source patterns. -/
def dropSpaces (l : List Char) : List Char := l.dropWhile isSpace

/-- The text matched by a leading `(\s*)` capture group. -/
def takeSpaces (l : List Char) : List Char := l.takeWhile isSpace

def notNL (c : Char) : Bool := if c = '\n' then false else true

/-- The text captured by a trailing `(.*)` group: the maximal run of
non-newline characters. -/
def captureRest (l : List Char) : List Char := l.takeWhile notNL

/-- Strip a literal pattern piece from the front of the input. -/
def stripPre : List Char → List Char → Option (List Char)
  | [], r => some r
  | _ :: _, [] => none
  | p :: ps, c :: cs => if p = c then stripPre ps cs else none

/-- Consume a single `\s`. -/
def oneSpace : List Char → Option (List Char)
  | [] => none
  | c :: r => if isSpace c then some r else none

/-- The prefix of the input that precedes the last occurrence of a
character; `none` when the character does not occur.  This is the
greedy reading of `(.*)c` in the source patterns. -/
def splitLast (a : Char) : List Char → Option (List Char)
  | [] => none
  | c :: cs =>
    match splitLast a cs with
    | some p => some (c :: p)
    | none => if c = a then some ([] : List Char) else none

def atBrief : List Char := ['@', 'b', 'r', 'i', 'e', 'f']
def atClass : List Char := ['@', 'c', 'l', 'a', 's', 's']
def atFile : List Char := ['@', 'f', 'i', 'l', 'e']
def atPackage : List Char := ['@', 'p', 'a', 'c', 'k', 'a', 'g', 'e']
def defTok : List Char := ['d', 'e', 'f']
def classTok : List Char := ['c', 'l', 'a', 's', 's']
def moduleKey : Txt := ['m', 'o', 'd', 'u', 'l', 'e']
def blankLine : Line := ['\n']
def indentUnit : List Char := [' ', ' ', ' ', ' ']
def q3 : List Char := ['"', '"', '"']
def q3bang : List Char := ['"', '"', '"', '!']
def nlChar : List Char := ['\n']

/-- Consume `##\s` from the front of the input. -/
def hashHash : List Char → Option (List Char)
  | c1 :: c2 :: r => if c1 = '#' then if c2 = '#' then oneSpace r else none else none
  | _ => none

/-- Consume a literal tag followed by `\s`, then capture `(.*)`. -/
def tagM (tag : List Char) (r : List Char) : Option Txt :=
  (stripPre tag r).bind fun r2 => (oneSpace r2).map captureRest

/-- `BRIEF = re.compile(r"\s*##\s@brief\s(.*)")`, returning group 1. -/
def briefM (l : Line) : Option Txt :=
  (hashHash (dropSpaces l)).bind (tagM atBrief)

/-- `MODULE = re.compile(r"##\s@package\s(.*)")`, returning group 1.
The pattern is anchored at column zero: no leading `\s*`. -/
def moduleM (l : Line) : Option Txt :=
  (hashHash l).bind (tagM atPackage)

/-- `DOXYGEN_START = re.compile(r"\s*##\s(@brief|@class|@file|@package)\s(.*)")`,
returning group 2.  The alternatives are pairwise non-overlapping, so the
orelse chain is the alternation. -/
def doxygenStartM (l : Line) : Option Txt :=
  (hashHash (dropSpaces l)).bind fun r1 =>
    match tagM atBrief r1 with
    | some t => some t
    | none =>
      match tagM atClass r1 with
      | some t => some t
      | none =>
        match tagM atFile r1 with
        | some t => some t
        | none => tagM atPackage r1

/-- `FUNCTION_DEF = re.compile(r"(\s*)def\s(.*)\(.*:")`, returning
(group 1, group 2).  Greedy matching makes group 2 the text before the
last `(` that still has a `:` after it within the line. -/
def funcM (l : Line) : Option (List Char × Txt) :=
  (stripPre defTok (dropSpaces l)).bind fun r =>
    (oneSpace r).bind fun r1 =>
      (splitLast ':' (captureRest r1)).bind fun v =>
        (splitLast '(' v).map fun nm => (takeSpaces l, nm)

/-- `CLASS_DEF = re.compile(r"(\s*)class\s(.*):")`, returning
(group 1, group 2): group 2 is the text before the last `:` in the line. -/
def classM (l : Line) : Option (List Char × Txt) :=
  (stripPre classTok (dropSpaces l)).bind fun r =>
    (oneSpace r).bind fun r1 =>
      (splitLast ':' (captureRest r1)).map fun nm => (takeSpaces l, nm)

/-- `DECORATOR = re.compile(r"\s*@.*")` as a Boolean test. -/
def decoratorB (l : Line) : Bool :=
  match dropSpaces l with
  | c :: _ => if c = '@' then true else false
  | [] => false

/-- `SHEBANG = re.compile(r"#!.*")` as a Boolean test. -/
def shebangB (l : Line) : Bool :=
  match l with
  | c1 :: c2 :: _ => if c1 = '#' then if c2 = '!' then true else false else false
  | _ => false

/-- `OTHER = re.compile(r"\s*#\s\s(.*)")`, returning group 1. -/
def otherM (l : Line) : Option Txt :=
  match dropSpaces l with
  | c :: r =>
    if c = '#' then (oneSpace r).bind fun r1 => (oneSpace r1).map captureRest
    else none
  | [] => none

/-! ## The table of Design A

Python dict with string keys, restricted to the operations the source
uses: membership, lookup, and insert-or-overwrite. -/

abbrev Dict := List (Txt × List Txt)

def dictMem : Dict → Txt → Bool
  | [], _ => false
  | (k1, _) :: d, k => if k1 = k then true else dictMem d k

def dictGetD : Dict → Txt → List Txt
  | [], _ => []
  | (k1, v) :: d, k => if k1 = k then v else dictGetD d k

def dictInsert : Dict → Txt → List Txt → Dict
  | [], k, v => [(k, v)]
  | (k1, v1) :: d, k, v =>
    if k1 = k then (k, v) :: d else (k1, v1) :: dictInsert d k v

/-- Errors modelling unhandled Python exceptions: `matchFail` is the
`TypeError` raised by subscripting a failed match (`OTHER.match(line)[1]`),
`outOfRange` the `IndexError` of `code[line_idx]` past the end. -/
inductive PyErr where
  | matchFail
  | outOfRange
  deriving DecidableEq, Repr

/-! ## Design A: `__parse_file` -/

/-- One iteration of the `__parse_file` loop body, following the
`if`/`elif` chain of the source exactly.  Returns the new
(flag, buffer, table) state and the lines appended to `code`. -/
def parseStep (l : Line) (flag : Bool) (temp : List Txt) (ds : Dict) :
    Except PyErr (Bool × List Txt × Dict × List Line) :=
  if flag = false then
    match briefM l with
    | some cap => .ok (true, temp ++ [cap], ds, [])
    | none =>
      match moduleM l with
      | some _ => .ok (true, temp, ds, [])
      | none => .ok (false, temp, ds, [l])
  else
    match funcM l with
    | some (_, nm) => .ok (false, [], dictInsert ds nm temp, [l])
    | none =>
      match classM l with
      | some (_, nm) => .ok (false, [], dictInsert ds nm temp, [l])
      | none =>
        if l = blankLine then .ok (false, [], dictInsert ds moduleKey temp, [l])
        else if decoratorB l = true then .ok (true, temp, ds, [l])
        else
          match otherM l with
          | some cap => .ok (true, temp ++ [cap], ds, [])
          | none => .error .matchFail

/-- The `__parse_file` loop over the remaining lines. -/
def parseAux : List Line → Bool → List Txt → Dict → Except PyErr (Dict × List Line)
  | [], _, _, ds => .ok (ds, [])
  | l :: rest, flag, temp, ds =>
    match parseStep l flag temp ds with
    | .error e => .error e
    | .ok (flag1, temp1, ds1, out) =>
      match parseAux rest flag1 temp1 ds1 with
      | .error e => .error e
      | .ok (dsf, code) => .ok (dsf, out ++ code)

/-- `DoxygenConverter.__parse_file` on a list of lines. -/
def parseFile (lines : List Line) : Except PyErr (Dict × List Line) :=
  parseAux lines false [] []

/-! ## Design A: `__add_docstrings` -/

/-- The literal block inserted after a function or class header:
`f'{indent}"""!\n'`, one `f"{indent}{line}\n"` per buffer entry, and
`f'{indent}"""\n'`, where `indent` is the header indent plus four spaces. -/
def blockFor (ind : List Char) (dox : List Txt) : List Line :=
  (ind ++ indentUnit ++ q3bang ++ nlChar) ::
    (dox.map fun c => ind ++ indentUnit ++ c ++ nlChar) ++
      [ind ++ indentUnit ++ q3 ++ nlChar]

/-- The module literal block: `'"""\n'`, one `f"{line}\n"` per buffer
entry, and `'"""\n'`, with no indent. -/
def modBlock (dox : List Txt) : List Line :=
  (q3 ++ nlChar) :: (dox.map fun c => c ++ nlChar) ++ [q3 ++ nlChar]

/-- One iteration of the `__add_docstrings` loop body at the current
line `l`: returns the list that replaces the lines after `l`.
`code.insert` clamps an index past the end, so the module block lands
after at most one following line. -/
def addStep (ds : Dict) (l : Line) (rest : List Line) : List Line :=
  if shebangB l = true ∧ dictMem ds moduleKey = true then
    rest.take 1 ++ modBlock (dictGetD ds moduleKey) ++ rest.drop 1
  else
    match funcM l with
    | some (ind, nm) =>
      if dictMem ds nm = true then blockFor ind (dictGetD ds nm) ++ rest else rest
    | none =>
      match classM l with
      | some (ind, nm) =>
        if dictMem ds nm = true then blockFor ind (dictGetD ds nm) ++ rest else rest
      | none => rest

/-- The `__add_docstrings` loop.  The scan also walks over freshly
inserted lines, so the list may grow while being scanned; the fuel
argument pays one unit per emitted line and `none` reports exhaustion
(the Python loop can diverge on pathological tables). -/
def addAux : Nat → Dict → List Line → Option (List Line)
  | 0, _, _ => none
  | _ + 1, _, [] => some []
  | f + 1, ds, l :: rest => (addAux f ds (addStep ds l rest)).map fun out => l :: out

/-- `DoxygenConverter.convert` without the file system glue: parse, then
add docstrings. -/
def convA (fuel : Nat) (lines : List Line) : Option (Except PyErr (List Line)) :=
  match parseFile lines with
  | .error e => some (.error e)
  | .ok (ds, code) => (addAux fuel ds code).map .ok

/-! ## Design B: `complete_convert` -/

/-- The inner `while doxygen_flag` loop of `complete_convert`, as a
zipper: `done` holds the lines before `line_idx` in reverse, `todo` the
lines from `line_idx` on, `dox` the buffer.  Running off the end of the
list models the `IndexError` of `code[line_idx]`. -/
def innerB : List Line → List Line → List Txt → Except PyErr (List Line × List Line)
  | _, [], _ => .error .outOfRange
  | done, x :: xs, dox =>
    if decoratorB x = true then innerB (x :: done) xs dox
    else
      match funcM x with
      | some (ind, _) => .ok (done, x :: (blockFor ind dox ++ xs))
      | none =>
        match classM x with
        | some (ind, _) => .ok (done, x :: (blockFor ind dox ++ xs))
        | none =>
          if x = blankLine then .ok (done, modBlock dox ++ x :: xs)
          else
            match otherM x with
            | some cap => innerB done xs (dox ++ [cap])
            | none => .error .matchFail

/-- The outer `while line_idx < len(code)` loop of `complete_convert`.
At the top of each iteration the flag is false; a start match removes
the line, seeds the buffer, and runs the inner loop from the same
index; then `line_idx += 1` moves one line to `done`.  Fuel pays one
unit per outer iteration. -/
def outerB : Nat → List Line → List Line → Option (Except PyErr (List Line))
  | 0, _, _ => none
  | _ + 1, done, [] => some (.ok done.reverse)
  | f + 1, done, l :: rest =>
    match doxygenStartM l with
    | some cap =>
      match innerB done rest [cap] with
      | .error e => some (.error e)
      | .ok (done1, todo1) =>
        match todo1 with
        | [] => outerB f done1 []
        | h :: t => outerB f (h :: done1) t
    | none => outerB f (l :: done) rest

/-- `DoxygenConverter.complete_convert` without the file system glue. -/
def convB (fuel : Nat) (lines : List Line) : Option (Except PyErr (List Line)) :=
  outerB fuel [] lines

/-! ## Basic facts about the classifiers -/

theorem stripPre_eq_append :
    ∀ p r r2, stripPre p r = some r2 → r = p ++ r2 := by
  intro p
  induction p with
  | nil =>
    intro r r2 h
    have h2 : some r = some r2 := h
    cases h2
    simp
  | cons p ps ih =>
    intro r r2 h
    cases r with
    | nil => simp [stripPre] at h
    | cons c cs =>
      by_cases hpc : p = c
      · rw [stripPre, if_pos hpc] at h
        have := ih cs r2 h
        simp [this, hpc]
      · rw [stripPre, if_neg hpc] at h
        exact absurd h (by simp)

theorem dropSpaces_cons_of_neg {c : Char} {t : List Char}
    (h : isSpace c = false) : dropSpaces (c :: t) = c :: t := by
  simp [dropSpaces, List.dropWhile, h]

theorem dropSpaces_cons_of_pos {c : Char} {t : List Char}
    (h : isSpace c = true) : dropSpaces (c :: t) = dropSpaces t := by
  simp [dropSpaces, List.dropWhile, h]

theorem isSpace_hash : isSpace '#' = false := by decide

theorem mem_takeSpaces {l : List Char} {c : Char}
    (h : c ∈ takeSpaces l) : isSpace c = true :=
  List.mem_takeWhile_imp h

theorem dropSpaces_spaces_append {s t : List Char}
    (h : ∀ c ∈ s, isSpace c = true) : dropSpaces (s ++ t) = dropSpaces t := by
  induction s with
  | nil => rfl
  | cons c s ih =>
    rw [List.cons_append, dropSpaces_cons_of_pos (h c (by simp))]
    exact ih fun x hx => h x (by simp [hx])

/-- A `BRIEF` match is a `DOXYGEN_START` match with the same capture. -/
theorem brief_start {l : Line} {t : Txt}
    (h : briefM l = some t) : doxygenStartM l = some t := by
  unfold briefM at h
  unfold doxygenStartM
  cases hh : hashHash (dropSpaces l) with
  | none => rw [hh] at h; simp at h
  | some r1 =>
    rw [hh] at h
    simp only [Option.some_bind] at h ⊢
    rw [h]

theorem hashHash_cons_ne {c : Char} {r : List Char} (hc : c ≠ '#') :
    hashHash (c :: r) = none := by
  cases r with
  | nil => rfl
  | cons b t => simp [hashHash, hc]

/-- A successful `##\s` consumption pins down the first two characters. -/
theorem hashHash_shape {l r1 : List Char} (h : hashHash l = some r1) :
    ∃ r, l = '#' :: '#' :: r ∧ oneSpace r = some r1 := by
  cases l with
  | nil => simp [hashHash] at h
  | cons c1 t =>
    cases t with
    | nil => simp [hashHash] at h
    | cons c2 r =>
      by_cases h1 : c1 = '#'
      · by_cases h2 : c2 = '#'
        · subst h1; subst h2
          refine ⟨r, rfl, ?_⟩
          simpa [hashHash] using h
        · simp [hashHash, h2] at h
      · simp [hashHash, h1] at h

/-- A `MODULE` match is a `DOXYGEN_START` match with the same capture. -/
theorem module_start {l : Line} {t : Txt}
    (h : moduleM l = some t) : doxygenStartM l = some t := by
  unfold moduleM at h
  rw [Option.bind_eq_some] at h
  obtain ⟨r1, hh, ht⟩ := h
  obtain ⟨r, hl, _⟩ := hashHash_shape hh
  subst hl
  have hds : dropSpaces ('#' :: '#' :: r) = '#' :: '#' :: r :=
    dropSpaces_cons_of_neg isSpace_hash
  unfold doxygenStartM
  rw [hds, hh]
  simp only [Option.some_bind]
  unfold tagM at ht
  rw [Option.bind_eq_some] at ht
  obtain ⟨r2, hsp, hcap⟩ := ht
  have hr1 : r1 = atPackage ++ r2 := stripPre_eq_append _ _ _ hsp
  subst hr1
  have hb : tagM atBrief (atPackage ++ r2) = none := by
    simp [tagM, atPackage, atBrief, stripPre]
  have hc : tagM atClass (atPackage ++ r2) = none := by
    simp [tagM, atPackage, atClass, stripPre]
  have hf : tagM atFile (atPackage ++ r2) = none := by
    simp [tagM, atPackage, atFile, stripPre]
  simp only [hb, hc, hf]
  unfold tagM
  rw [hsp]
  simpa using hcap

theorem start_none_brief {l : Line}
    (h : doxygenStartM l = none) : briefM l = none := by
  cases hb : briefM l with
  | none => rfl
  | some t => rw [brief_start hb] at h; simp at h

theorem start_none_module {l : Line}
    (h : doxygenStartM l = none) : moduleM l = none := by
  cases hb : moduleM l with
  | none => rfl
  | some t => rw [module_start hb] at h; simp at h

/-! Lemmas deriving which classifiers cannot match from the first
non-space character of a line. -/

theorem noHash_brief {l : Line} {c : Char} {r : List Char}
    (h : dropSpaces l = c :: r) (hc : c ≠ '#') : briefM l = none := by
  unfold briefM
  rw [h, hashHash_cons_ne hc]
  rfl

theorem noHash_start {l : Line} {c : Char} {r : List Char}
    (h : dropSpaces l = c :: r) (hc : c ≠ '#') : doxygenStartM l = none := by
  unfold doxygenStartM
  rw [h, hashHash_cons_ne hc]
  rfl

theorem noHash_other {l : Line} {c : Char} {r : List Char}
    (h : dropSpaces l = c :: r) (hc : c ≠ '#') : otherM l = none := by
  unfold otherM
  rw [h]
  simp [hc]

/-- When the line's first non-space character is not `#`, the line
cannot start with `#` at column zero either. -/
theorem head_ne_of_dropSpaces {l : Line} {c : Char} {r : List Char} {a : Char}
    {t : List Char} (h : dropSpaces l = c :: r) (hl : l = a :: t)
    (hc : c ≠ '#') : a ≠ '#' := by
  by_cases hs : isSpace a = true
  · intro heq; rw [heq] at hs; exact absurd hs (by decide)
  · intro heq
    rw [hl, dropSpaces_cons_of_neg (by simpa using hs)] at h
    injection h with h1 _
    exact hc (h1 ▸ heq)

theorem noHash_module {l : Line} {c : Char} {r : List Char}
    (h : dropSpaces l = c :: r) (hc : c ≠ '#') : moduleM l = none := by
  unfold moduleM
  cases hl : l with
  | nil => rfl
  | cons a t =>
    rw [hashHash_cons_ne (head_ne_of_dropSpaces (hl ▸ h) rfl hc)]
    rfl

theorem noHash_shebang {l : Line} {c : Char} {r : List Char}
    (h : dropSpaces l = c :: r) (hc : c ≠ '#') : shebangB l = false := by
  cases hl : l with
  | nil => rfl
  | cons a t =>
    have ha : a ≠ '#' := head_ne_of_dropSpaces (hl ▸ h) rfl hc
    cases t with
    | nil => rfl
    | cons b t2 => simp [shebangB, ha]

theorem noD_func {l : Line} {c : Char} {r : List Char}
    (h : dropSpaces l = c :: r) (hc : c ≠ 'd') : funcM l = none := by
  have hdc : ¬ ('d' : Char) = c := fun heq => hc heq.symm
  unfold funcM
  rw [h]
  simp [defTok, stripPre, hdc]

theorem noC_class {l : Line} {c : Char} {r : List Char}
    (h : dropSpaces l = c :: r) (hc : c ≠ 'c') : classM l = none := by
  have hcc : ¬ ('c' : Char) = c := fun heq => hc heq.symm
  unfold classM
  rw [h]
  simp [classTok, stripPre, hcc]

theorem noAt_decorator {l : Line} {c : Char} {r : List Char}
    (h : dropSpaces l = c :: r) (hc : c ≠ '@') : decoratorB l = false := by
  unfold decoratorB
  rw [h]
  simp [hc]

theorem ne_blank_of_head {l : Line} {c : Char} {r : List Char}
    (h : dropSpaces l = c :: r) : l ≠ blankLine := by
  intro heq
  rw [heq] at h
  simp [blankLine, dropSpaces, List.dropWhile, isSpace] at h

/-! ## Consequences for whole classifier groups -/

theorem func_shape {l : Line} {p : List Char × Txt} (h : funcM l = some p) :
    ∃ r, dropSpaces l = 'd' :: 'e' :: 'f' :: r := by
  unfold funcM at h
  rw [Option.bind_eq_some] at h
  obtain ⟨r, hsp, _⟩ := h
  exact ⟨r, stripPre_eq_append _ _ _ hsp⟩

theorem class_shape {l : Line} {p : List Char × Txt} (h : classM l = some p) :
    ∃ r, dropSpaces l = 'c' :: 'l' :: 'a' :: 's' :: 's' :: r := by
  unfold classM at h
  rw [Option.bind_eq_some] at h
  obtain ⟨r, hsp, _⟩ := h
  exact ⟨r, stripPre_eq_append _ _ _ hsp⟩

theorem start_shape {l : Line} {t : Txt} (h : doxygenStartM l = some t) :
    ∃ r, dropSpaces l = '#' :: '#' :: r := by
  unfold doxygenStartM at h
  rw [Option.bind_eq_some] at h
  obtain ⟨r1, hh, _⟩ := h
  obtain ⟨r, hr, _⟩ := hashHash_shape hh
  exact ⟨r, hr⟩

/-- Facts that follow from a function-header match: no other classifier
relevant to the scans can fire on the same line. -/
theorem func_props {l : Line} {p : List Char × Txt} (h : funcM l = some p) :
    briefM l = none ∧ moduleM l = none ∧ doxygenStartM l = none ∧
    classM l = none ∧ decoratorB l = false ∧ shebangB l = false ∧
    l ≠ blankLine ∧ otherM l = none := by
  obtain ⟨r, hd⟩ := func_shape h
  exact ⟨noHash_brief hd (by decide), noHash_module hd (by decide),
    noHash_start hd (by decide), noC_class hd (by decide),
    noAt_decorator hd (by decide), noHash_shebang hd (by decide),
    ne_blank_of_head hd, noHash_other hd (by decide)⟩

/-- Facts that follow from a class-header match. -/
theorem class_props {l : Line} {p : List Char × Txt} (h : classM l = some p) :
    briefM l = none ∧ moduleM l = none ∧ doxygenStartM l = none ∧
    funcM l = none ∧ decoratorB l = false ∧ shebangB l = false ∧
    l ≠ blankLine ∧ otherM l = none := by
  obtain ⟨r, hd⟩ := class_shape h
  exact ⟨noHash_brief hd (by decide), noHash_module hd (by decide),
    noHash_start hd (by decide), noD_func hd (by decide),
    noAt_decorator hd (by decide), noHash_shebang hd (by decide),
    ne_blank_of_head hd, noHash_other hd (by decide)⟩

/-- Facts that follow from a decorator match. -/
theorem decorator_props {l : Line} (h : decoratorB l = true) :
    funcM l = none ∧ classM l = none ∧ l ≠ blankLine := by
  unfold decoratorB at h
  cases hd : dropSpaces l with
  | nil => rw [hd] at h; simp at h
  | cons c r =>
    rw [hd] at h
    have hc : c = '@' := by
      by_cases hc : c = '@'
      · exact hc
      · simp [hc] at h
    subst hc
    exact ⟨noD_func hd (by decide), noC_class hd (by decide), ne_blank_of_head hd⟩

/-- Facts that follow from a shebang match. -/
theorem shebang_props {l : Line} (h : shebangB l = true) :
    briefM l = none ∧ moduleM l = none ∧ doxygenStartM l = none ∧
    funcM l = none ∧ classM l = none := by
  unfold shebangB at h
  cases hl : l with
  | nil => rw [hl] at h; simp at h
  | cons c1 t =>
    cases t with
    | nil => rw [hl] at h; simp at h
    | cons c2 t2 =>
      rw [hl] at h
      have h1 : c1 = '#' := by
        by_cases h1 : c1 = '#'
        · exact h1
        · simp [h1] at h
      have h2 : c2 = '!' := by
        subst h1
        by_cases h2 : c2 = '!'
        · exact h2
        · simp [h2] at h
      subst h1; subst h2
      have hd : dropSpaces ('#' :: '!' :: t2) = '#' :: '!' :: t2 :=
        dropSpaces_cons_of_neg isSpace_hash
      refine ⟨?_, ?_, ?_, noD_func hd (by decide), noC_class hd (by decide)⟩
      · unfold briefM
        rw [hd]
        simp [hashHash, oneSpace, isSpace]
      · unfold moduleM
        simp [hashHash, oneSpace, isSpace]
      · unfold doxygenStartM
        rw [hd]
        simp [hashHash, oneSpace, isSpace]

/-- A line on which no classifier that can open, extend or close a
block fires.  Such lines pass through both designs untouched. -/
def lineInert (l : Line) : Prop :=
  doxygenStartM l = none ∧ funcM l = none ∧ classM l = none ∧ shebangB l = false

instance (l : Line) : Decidable (lineInert l) := by
  unfold lineInert; infer_instance

theorem lineInert_brief {l : Line} (h : lineInert l) : briefM l = none :=
  start_none_brief h.1

theorem lineInert_module {l : Line} (h : lineInert l) : moduleM l = none :=
  start_none_module h.1

/-- A continuation line of a comment block: nothing terminates the
block and the `OTHER` pattern captures. -/
def contLike (l : Line) : Prop :=
  funcM l = none ∧ classM l = none ∧ l ≠ blankLine ∧ decoratorB l = false ∧
    (otherM l).isSome = true

instance (l : Line) : Decidable (contLike l) := by
  unfold contLike; infer_instance

/-- The capture of the `OTHER` pattern, with an irrelevant default. -/
def capOf (l : Line) : Txt := (otherM l).getD []

/-! ## Step lemmas for pass 1 of Design A -/

theorem parseStep_pass {l : Line} {temp : List Txt} {ds : Dict}
    (hb : briefM l = none) (hm : moduleM l = none) :
    parseStep l false temp ds = .ok (false, temp, ds, [l]) := by
  simp [parseStep, hb, hm]

theorem parseStep_brief {l : Line} {temp : List Txt} {ds : Dict} {cap : Txt}
    (hb : briefM l = some cap) :
    parseStep l false temp ds = .ok (true, temp ++ [cap], ds, []) := by
  simp [parseStep, hb]

theorem parseStep_module {l : Line} {temp : List Txt} {ds : Dict} {cap : Txt}
    (hb : briefM l = none) (hm : moduleM l = some cap) :
    parseStep l false temp ds = .ok (true, temp, ds, []) := by
  simp [parseStep, hb, hm]

theorem parseStep_func {l : Line} {temp : List Txt} {ds : Dict}
    {ind : List Char} {nm : Txt} (hf : funcM l = some (ind, nm)) :
    parseStep l true temp ds = .ok (false, [], dictInsert ds nm temp, [l]) := by
  simp [parseStep, hf]

theorem parseStep_class {l : Line} {temp : List Txt} {ds : Dict}
    {ind : List Char} {nm : Txt} (hf : funcM l = none)
    (hc : classM l = some (ind, nm)) :
    parseStep l true temp ds = .ok (false, [], dictInsert ds nm temp, [l]) := by
  simp [parseStep, hf, hc]

theorem parseStep_blank {temp : List Txt} {ds : Dict} :
    parseStep blankLine true temp ds =
      .ok (false, [], dictInsert ds moduleKey temp, [blankLine]) := by
  have hf : funcM blankLine = none := by decide
  have hc : classM blankLine = none := by decide
  simp [parseStep, hf, hc]

theorem parseStep_decorator {l : Line} {temp : List Txt} {ds : Dict}
    (hd : decoratorB l = true) :
    parseStep l true temp ds = .ok (true, temp, ds, [l]) := by
  obtain ⟨hf, hc, hb⟩ := decorator_props hd
  simp [parseStep, hf, hc, hb, hd]

theorem parseStep_cont {l : Line} {temp : List Txt} {ds : Dict}
    (h : contLike l) :
    parseStep l true temp ds = .ok (true, temp ++ [capOf l], ds, []) := by
  obtain ⟨hf, hc, hb, hd, ho⟩ := h
  obtain ⟨cap, hcap⟩ := Option.isSome_iff_exists.mp ho
  simp [parseStep, hf, hc, hb, hd, hcap, capOf]

theorem parseStep_fail {l : Line} {temp : List Txt} {ds : Dict}
    (hf : funcM l = none) (hc : classM l = none) (hb : l ≠ blankLine)
    (hd : decoratorB l = false) (ho : otherM l = none) :
    parseStep l true temp ds = .error .matchFail := by
  simp [parseStep, hf, hc, hb, hd, ho]

/-! ## Step lemmas for pass 2 of Design A -/

theorem dictMem_nil {k : Txt} : dictMem [] k = false := rfl

theorem addStep_nilDict {l : Line} {rest : List Line} :
    addStep [] l rest = rest := by
  unfold addStep
  rw [if_neg (by simp [dictMem_nil])]
  cases hf : funcM l with
  | some p =>
    obtain ⟨ind, nm⟩ := p
    simp [dictMem_nil]
  | none =>
    cases hc : classM l with
    | some p => obtain ⟨ind, nm⟩ := p; simp [dictMem_nil]
    | none => rfl

theorem addStep_inert {ds : Dict} {l : Line} {rest : List Line}
    (h : lineInert l) : addStep ds l rest = rest := by
  obtain ⟨_, hf, hc, hs⟩ := h
  unfold addStep
  rw [if_neg (by simp [hs]), hf, hc]

theorem addStep_func {ds : Dict} {l : Line} {rest : List Line}
    {ind : List Char} {nm : Txt} (hf : funcM l = some (ind, nm))
    (hm : dictMem ds nm = true) :
    addStep ds l rest = blockFor ind (dictGetD ds nm) ++ rest := by
  have hs : shebangB l = false := (func_props hf).2.2.2.2.2.1
  unfold addStep
  rw [if_neg (by simp [hs]), hf]
  simp [hm]

theorem addStep_shebang {ds : Dict} {l : Line} {rest : List Line}
    (hs : shebangB l = true) (hm : dictMem ds moduleKey = true) :
    addStep ds l rest =
      rest.take 1 ++ modBlock (dictGetD ds moduleKey) ++ rest.drop 1 := by
  unfold addStep
  rw [if_pos ⟨hs, hm⟩]

/-! ## Fold lemmas for pass 1 of Design A -/

/-- With the flag down, lines on which neither start pattern fires pass
through `__parse_file` without touching the state. -/
theorem parse_neutral {lines : List Line} {temp : List Txt} {ds : Dict}
    (h : ∀ l ∈ lines, briefM l = none ∧ moduleM l = none) :
    parseAux lines false temp ds = .ok (ds, lines) := by
  induction lines with
  | nil => rfl
  | cons l rest ih =>
    have hl := h l (by simp)
    simp only [parseAux, parseStep_pass hl.1 hl.2,
      ih fun x hx => h x (by simp [hx])]
    rfl

/-- Factoring a neutral prefix out of pass 1. -/
theorem parse_pre {pre rest : List Line} {temp : List Txt} {ds : Dict}
    (h : ∀ l ∈ pre, briefM l = none ∧ moduleM l = none) :
    parseAux (pre ++ rest) false temp ds =
      Except.map (fun p => (p.1, pre ++ p.2)) (parseAux rest false temp ds) := by
  induction pre with
  | nil =>
    simp only [List.nil_append]
    cases parseAux rest false temp ds with
    | error e => rfl
    | ok p => simp [Except.map]
  | cons l pre ih =>
    have hl := h l (by simp)
    simp only [List.cons_append, List.append_eq, parseAux, parseStep_pass hl.1 hl.2]
    rw [ih fun x hx => h x (by simp [hx])]
    cases parseAux rest false temp ds with
    | error e => rfl
    | ok p =>
      obtain ⟨d, c⟩ := p
      simp [Except.map]

/-- With the flag up, a run of continuation lines extends the buffer
with their captures and emits nothing. -/
theorem parse_conts {conts rest : List Line} {temp : List Txt} {ds : Dict}
    (h : ∀ l ∈ conts, contLike l) :
    parseAux (conts ++ rest) true temp ds =
      parseAux rest true (temp ++ conts.map capOf) ds := by
  induction conts generalizing temp with
  | nil => simp
  | cons l cs ih =>
    have hl := h l (by simp)
    simp only [List.cons_append, List.append_eq, parseAux, parseStep_cont hl]
    rw [ih fun x hx => h x (by simp [hx])]
    have harr : temp ++ [capOf l] ++ cs.map capOf = temp ++ (l :: cs).map capOf := by
      simp
    rw [harr]
    cases parseAux rest true (temp ++ (l :: cs).map capOf) ds with
    | error e => rfl
    | ok p =>
      obtain ⟨d, c⟩ := p
      rfl

/-! ## Fold lemmas for pass 2 of Design A -/

/-- Pass 2 with an empty table is the identity (given enough fuel). -/
theorem addAux_nilDict {code : List Line} :
    ∀ fuel, code.length < fuel → addAux fuel [] code = some code := by
  induction code with
  | nil =>
    intro fuel h
    cases fuel with
    | zero => omega
    | succ f => rfl
  | cons l rest ih =>
    intro fuel h
    cases fuel with
    | zero => omega
    | succ f =>
      simp only [addAux, addStep_nilDict,
        ih f (by simp only [List.length_cons] at h; omega)]
      rfl

/-- Factoring an inert prefix out of pass 2. -/
theorem add_pre {rest : List Line} {ds : Dict} (pre : List Line)
    (h : ∀ l ∈ pre, lineInert l) (g : Nat) :
    addAux (pre.length + g) ds (pre ++ rest) =
      (addAux g ds rest).map fun out => pre ++ out := by
  induction pre with
  | nil =>
    simp only [List.length_nil, List.nil_append, Nat.zero_add]
    cases addAux g ds rest with
    | none => rfl
    | some out => simp
  | cons l pre ih =>
    have hl := h l (by simp)
    have harith : (l :: pre).length + g = (pre.length + g) + 1 := by
      simp only [List.length_cons]
      omega
    rw [harith]
    simp only [List.cons_append, List.append_eq, addAux, addStep_inert hl]
    rw [ih fun x hx => h x (by simp [hx])]
    cases addAux g ds rest with
    | none => rfl
    | some out => simp

/-! ## Fold lemmas for Design B -/

/-- Factoring a prefix with no start match out of the outer loop. -/
theorem outer_pre {rest : List Line} (pre : List Line) {done : List Line}
    (h : ∀ l ∈ pre, doxygenStartM l = none) (g : Nat) :
    outerB (pre.length + g) done (pre ++ rest) =
      outerB g (pre.reverse ++ done) rest := by
  induction pre generalizing done with
  | nil => simp [Nat.zero_add]
  | cons l pre ih =>
    have hl := h l (by simp)
    have harith : (l :: pre).length + g = (pre.length + g) + 1 := by
      simp only [List.length_cons]
      omega
    rw [harith]
    simp only [List.cons_append, List.append_eq, outerB, hl]
    rw [ih fun x hx => h x (by simp [hx])]
    simp

/-- Design B is the identity on line lists with no start match. -/
theorem outer_neutral {lines : List Line} :
    ∀ {done : List Line} fuel, (∀ l ∈ lines, doxygenStartM l = none) →
      lines.length < fuel →
      outerB fuel done lines = some (.ok (done.reverse ++ lines)) := by
  induction lines with
  | nil =>
    intro done fuel _ hf
    cases fuel with
    | zero => omega
    | succ f => simp [outerB]
  | cons l rest ih =>
    intro done fuel h hf
    cases fuel with
    | zero => omega
    | succ f =>
      have hl := h l (by simp)
      simp only [outerB, hl]
      rw [ih f (fun x hx => h x (by simp [hx]))
        (by simp only [List.length_cons] at hf; omega)]
      simp

/-- The inner loop consumes a run of continuation lines into the buffer. -/
theorem inner_conts {conts rest done : List Line} {dox : List Txt}
    (h : ∀ l ∈ conts, contLike l) :
    innerB done (conts ++ rest) dox =
      innerB done rest (dox ++ conts.map capOf) := by
  induction conts generalizing dox with
  | nil => simp
  | cons l cs ih =>
    obtain ⟨hf, hc, hb, hd, ho⟩ := h l (by simp)
    obtain ⟨cap, hcap⟩ := Option.isSome_iff_exists.mp ho
    simp only [List.cons_append, List.append_eq, innerB, hd, hf, hc, hb, hcap,
      Bool.false_eq_true, if_false, if_neg hb]
    rw [ih fun x hx => h x (by simp [hx])]
    have : dox ++ [cap] ++ cs.map capOf = dox ++ (l :: cs).map capOf := by
      simp [capOf, hcap]
    rw [this]

/-- The inner loop only ever adds passed-over lines on top of `done`. -/
theorem inner_done_shape {todo : List Line} :
    ∀ {done : List Line} {dox : List Txt} {d1 t1 : List Line},
      innerB done todo dox = .ok (d1, t1) → ∃ m, d1 = m ++ done := by
  induction todo with
  | nil => intro done dox d1 t1 h; simp [innerB] at h
  | cons x xs ih =>
    intro done dox d1 t1 h
    by_cases hd : decoratorB x = true
    · rw [innerB, if_pos hd] at h
      obtain ⟨m, hm⟩ := ih h
      exact ⟨m ++ [x], by simp [hm]⟩
    · rw [innerB, if_neg hd] at h
      cases hf : funcM x with
      | some p =>
        obtain ⟨ind, nm⟩ := p
        rw [hf] at h
        exact ⟨[], by injection h with h1; injection h1 with h2 _; simp [← h2]⟩
      | none =>
        rw [hf] at h
        cases hc : classM x with
        | some p =>
          obtain ⟨ind, nm⟩ := p
          rw [hc] at h
          exact ⟨[], by injection h with h1; injection h1 with h2 _; simp [← h2]⟩
        | none =>
          rw [hc] at h
          by_cases hb : x = blankLine
          · rw [if_pos hb] at h
            exact ⟨[], by injection h with h1; injection h1 with h2 _; simp [← h2]⟩
          · rw [if_neg hb] at h
            cases ho : otherM x with
            | some cap =>
              rw [ho] at h
              exact ih h
            | none => rw [ho] at h; exact absurd h (by simp)

/-! ## Sublist preservation -/

theorem addStep_sublist {ds : Dict} {l : Line} {rest : List Line} :
    rest.Sublist (addStep ds l rest) := by
  unfold addStep
  by_cases h1 : shebangB l = true ∧ dictMem ds moduleKey = true
  · rw [if_pos h1]
    conv_lhs => rw [← List.take_append_drop 1 rest]
    rw [List.append_assoc]
    exact (List.Sublist.refl _).append (List.sublist_append_right _ _)
  · rw [if_neg h1]
    cases funcM l with
    | some p =>
      obtain ⟨ind, nm⟩ := p
      by_cases hm : dictMem ds nm = true
      · simp only [hm, if_true]
        exact List.sublist_append_right _ _
      · simp only [hm, if_false]
        exact List.Sublist.refl _
    | none =>
      cases classM l with
      | some p =>
        obtain ⟨ind, nm⟩ := p
        by_cases hm : dictMem ds nm = true
        · simp only [hm, if_true]
          exact List.sublist_append_right _ _
        · simp only [hm, if_false]
          exact List.Sublist.refl _
      | none => exact List.Sublist.refl _

/-- Whatever pass 2 emits contains its input as a sublist: inserted
blocks only ever extend the line sequence. -/
theorem addAux_sublist {fuel : Nat} :
    ∀ {ds : Dict} {code out : List Line},
      addAux fuel ds code = some out → code.Sublist out := by
  induction fuel with
  | zero => intro ds code out h; simp [addAux] at h
  | succ f ih =>
    intro ds code out h
    cases code with
    | nil =>
      simp only [addAux, Option.some_inj] at h
      simp [← h]
    | cons l rest =>
      simp only [addAux, Option.map_eq_some'] at h
      obtain ⟨o1, h1, rfl⟩ := h
      exact List.cons_sublist_cons.mpr (addStep_sublist.trans (ih h1))

/-- The lines already passed over by Design B's outer loop survive into
the final output, in order. -/
theorem outerB_sublist {fuel : Nat} :
    ∀ {done todo out : List Line},
      outerB fuel done todo = some (.ok out) → done.reverse.Sublist out := by
  induction fuel with
  | zero => intro done todo out h; simp [outerB] at h
  | succ f ih =>
    intro done todo out h
    cases todo with
    | nil =>
      simp only [outerB, Option.some_inj] at h
      injection h with h1
      simp [← h1]
    | cons l rest =>
      cases hs : doxygenStartM l with
      | none =>
        rw [outerB] at h
        simp only [hs] at h
        have h2 := ih h
        rw [List.reverse_cons] at h2
        exact (List.sublist_append_left _ _).trans h2
      | some cap =>
        rw [outerB] at h
        simp only [hs] at h
        cases hi : innerB done rest [cap] with
        | error e => simp only [hi] at h; simp at h
        | ok p =>
          obtain ⟨d1, t1⟩ := p
          simp only [hi] at h
          obtain ⟨m, rfl⟩ := inner_done_shape hi
          cases t1 with
          | nil =>
            have h2 := ih h
            rw [List.reverse_append] at h2
            exact (List.sublist_append_left _ _).trans h2
          | cons hh tt =>
            have h2 := ih h
            rw [List.reverse_cons, List.reverse_append, List.append_assoc] at h2
            exact (List.sublist_append_left _ _).trans h2

/-! ## Fuel monotonicity -/

theorem addAux_mono : ∀ {fuel fuel2 : Nat} {ds : Dict} {code out : List Line},
    fuel ≤ fuel2 → addAux fuel ds code = some out →
    addAux fuel2 ds code = some out := by
  intro fuel
  induction fuel with
  | zero => intro f2 ds code out _ h; simp [addAux] at h
  | succ f ih =>
    intro f2 ds code out hle h
    cases f2 with
    | zero => omega
    | succ f3 =>
      cases code with
      | nil => simpa [addAux] using h
      | cons l rest =>
        simp only [addAux, Option.map_eq_some'] at h
        obtain ⟨o1, h1, rfl⟩ := h
        simp only [addAux, ih (Nat.le_of_succ_le_succ hle) h1, Option.map_some']

theorem outerB_mono : ∀ {fuel fuel2 : Nat} {done todo : List Line}
    {res : Except PyErr (List Line)},
    fuel ≤ fuel2 → outerB fuel done todo = some res →
    outerB fuel2 done todo = some res := by
  intro fuel
  induction fuel with
  | zero => intro f2 done todo res _ h; simp [outerB] at h
  | succ f ih =>
    intro f2 done todo res hle h
    cases f2 with
    | zero => omega
    | succ f3 =>
      cases todo with
      | nil => simpa [outerB] using h
      | cons l rest =>
        cases hs : doxygenStartM l with
        | none =>
          rw [outerB] at h ⊢
          simp only [hs] at h ⊢
          exact ih (Nat.le_of_succ_le_succ hle) h
        | some cap =>
          rw [outerB] at h ⊢
          simp only [hs] at h ⊢
          cases hi : innerB done rest [cap] with
          | error e => simp only [hi] at h ⊢; exact h
          | ok p =>
            obtain ⟨d1, t1⟩ := p
            simp only [hi] at h ⊢
            cases t1 with
            | nil => exact ih (Nat.le_of_succ_le_succ hle) h
            | cons hh tt => exact ih (Nat.le_of_succ_le_succ hle) h

/-! ## Inertness of inserted literal-block lines -/

/-- A `MODULE` match rules out a `BRIEF` match on the same line. -/
theorem module_not_brief {l : Line} {t : Txt}
    (h : moduleM l = some t) : briefM l = none := by
  unfold moduleM at h
  rw [Option.bind_eq_some] at h
  obtain ⟨r1, hh, ht⟩ := h
  obtain ⟨r, hl, _⟩ := hashHash_shape hh
  subst hl
  have hds : dropSpaces ('#' :: '#' :: r) = '#' :: '#' :: r :=
    dropSpaces_cons_of_neg isSpace_hash
  unfold briefM
  rw [hds, hh]
  simp only [Option.some_bind]
  unfold tagM at ht ⊢
  rw [Option.bind_eq_some] at ht
  obtain ⟨r2, hsp, _⟩ := ht
  have hr1 : r1 = atPackage ++ r2 := stripPre_eq_append _ _ _ hsp
  subst hr1
  simp [atPackage, atBrief, stripPre]

/-- The captured indent of a function header is all whitespace. -/
theorem func_ind_spaces {l : Line} {ind : List Char} {nm : Txt}
    (h : funcM l = some (ind, nm)) : ∀ c ∈ ind, isSpace c = true := by
  unfold funcM at h
  rw [Option.bind_eq_some] at h
  obtain ⟨r, _, h⟩ := h
  rw [Option.bind_eq_some] at h
  obtain ⟨r1, _, h⟩ := h
  rw [Option.bind_eq_some] at h
  obtain ⟨v, _, h⟩ := h
  rw [Option.map_eq_some'] at h
  obtain ⟨nm2, _, h⟩ := h
  rw [Prod.mk.injEq] at h
  intro c hc
  exact mem_takeSpaces (h.1 ▸ hc)

/-- Lines whose first non-space character is a double quote fire no
classifier at all. -/
theorem quote_head_inert {l : Line} {r : List Char}
    (h : dropSpaces l = '"' :: r) : lineInert l :=
  ⟨noHash_start h (by decide), noD_func h (by decide), noC_class h (by decide),
    noHash_shebang h (by decide)⟩

theorem indented_drop {ind rest2 : List Char}
    (hind : ∀ c ∈ ind, isSpace c = true) :
    dropSpaces (ind ++ indentUnit ++ rest2) = dropSpaces rest2 := by
  rw [List.append_assoc, dropSpaces_spaces_append hind]
  exact dropSpaces_spaces_append (by decide)

theorem open_marker_inert {ind : List Char}
    (hind : ∀ c ∈ ind, isSpace c = true) :
    lineInert (ind ++ indentUnit ++ q3bang ++ nlChar) := by
  have h : dropSpaces (ind ++ indentUnit ++ q3bang ++ nlChar) =
      '"' :: ('"' :: '"' :: '!' :: nlChar) := by
    rw [List.append_assoc (ind ++ indentUnit), indented_drop hind]
    rfl
  exact quote_head_inert h

theorem close_marker_inert {ind : List Char}
    (hind : ∀ c ∈ ind, isSpace c = true) :
    lineInert (ind ++ indentUnit ++ q3 ++ nlChar) := by
  have h : dropSpaces (ind ++ indentUnit ++ q3 ++ nlChar) =
      '"' :: ('"' :: '"' :: nlChar) := by
    rw [List.append_assoc (ind ++ indentUnit), indented_drop hind]
    rfl
  exact quote_head_inert h

/-- Every line of an inserted function/class literal block is inert,
provided the re-indented content lines are. -/
theorem blockFor_inert {ind : List Char} {bufs : List Txt}
    (hind : ∀ c ∈ ind, isSpace c = true)
    (hin : ∀ c ∈ bufs, lineInert (ind ++ indentUnit ++ c ++ nlChar)) :
    ∀ l ∈ blockFor ind bufs, lineInert l := by
  intro l hl
  simp only [blockFor, List.mem_cons, List.mem_append, List.mem_map,
    List.mem_singleton] at hl
  rcases hl with (rfl | ⟨c, hc, rfl⟩) | (rfl | h0)
  · exact open_marker_inert hind
  · exact hin c hc
  · exact close_marker_inert hind
  · exact absurd h0 (by simp)

/-- Every line of an inserted module literal block is inert, provided
the re-emitted content lines are. -/
theorem modBlock_inert {dox : List Txt}
    (h : ∀ c ∈ dox, lineInert (c ++ nlChar)) :
    ∀ l ∈ modBlock dox, lineInert l := by
  intro l hl
  simp only [modBlock, List.mem_cons, List.mem_append, List.mem_map,
    List.mem_singleton] at hl
  rcases hl with (rfl | ⟨c, hc, rfl⟩) | (rfl | h0)
  · decide
  · exact h c hc
  · decide
  · exact absurd h0 (by simp)

/-- Pass 2 leaves a run of inert lines unchanged, whatever the table. -/
theorem addAux_inert {code : List Line} {ds : Dict}
    (h : ∀ l ∈ code, lineInert l) :
    ∀ fuel, code.length < fuel → addAux fuel ds code = some code := by
  induction code with
  | nil =>
    intro fuel hf
    cases fuel with
    | zero => omega
    | succ f => rfl
  | cons l rest ih =>
    intro fuel hf
    cases fuel with
    | zero => omega
    | succ f =>
      simp only [addAux, addStep_inert (h l (by simp)),
        ih (fun x hx => h x (by simp [hx])) f
          (by simp only [List.length_cons] at hf; omega)]
      rfl

/-! ## Unfolding `convert` -/

/-- One-step unfolding of the pass 2 loop on a cons cell. -/
theorem addAux_cons (f : Nat) (ds : Dict) (l : Line) (rest : List Line) :
    addAux (f + 1) ds (l :: rest) =
      (addAux f ds (addStep ds l rest)).map fun out => l :: out := rfl

/-- One outer iteration of Design B that opens a block, runs the inner
loop to a successful insertion, and advances one line. -/
theorem outerB_start_step {l hh : Line} {cap : Txt} {done rest d1 t1 : List Line}
    (f : Nat) (hstart : doxygenStartM l = some cap)
    (hinner : innerB done rest [cap] = .ok (d1, hh :: t1)) :
    outerB (f + 1) done (l :: rest) = outerB f (hh :: d1) t1 := by
  simp only [outerB, hstart, hinner]

theorem convA_ok {lines code : List Line} {ds : Dict} {fuel : Nat}
    (h : parseFile lines = .ok (ds, code)) :
    convA fuel lines = (addAux fuel ds code).map .ok := by
  unfold convA
  rw [h]

theorem convA_err {lines : List Line} {e : PyErr} {fuel : Nat}
    (h : parseFile lines = .error e) :
    convA fuel lines = some (.error e) := by
  unfold convA
  rw [h]

/-! ## The single-block family

Inputs of the shape `pre ++ [start line] ++ continuations ++ [function
header] ++ body`, with `pre` and `body` inert and the re-indented
content lines inert, are handled identically by both designs.  These
two lemmas compute each design's output on the family. -/

theorem family_convA (pre conts body : List Line) (briefL hdr : Line)
    (b1 : Txt) (ind : List Char) (nm : Txt) (fuel : Nat)
    (hpre : ∀ l ∈ pre, lineInert l)
    (hbr : briefM briefL = some b1)
    (hconts : ∀ l ∈ conts, contLike l)
    (hhdr : funcM hdr = some (ind, nm))
    (hbody : ∀ l ∈ body, lineInert l)
    (hins : ∀ c ∈ b1 :: conts.map capOf,
      lineInert (ind ++ indentUnit ++ c ++ nlChar))
    (hf : pre.length + conts.length + body.length + 5 ≤ fuel) :
    convA fuel (pre ++ briefL :: (conts ++ hdr :: body)) =
      some (.ok (pre ++ hdr ::
        (blockFor ind (b1 :: conts.map capOf) ++ body))) := by
  have hparse : parseFile (pre ++ briefL :: (conts ++ hdr :: body)) =
      .ok ([(nm, b1 :: conts.map capOf)], pre ++ hdr :: body) := by
    unfold parseFile
    rw [parse_pre fun l hl =>
      ⟨lineInert_brief (hpre l hl), lineInert_module (hpre l hl)⟩]
    have h1 : parseAux (briefL :: (conts ++ hdr :: body)) false [] [] =
        .ok ([(nm, b1 :: conts.map capOf)], hdr :: body) := by
      simp only [parseAux, parseStep_brief hbr]
      rw [parse_conts hconts]
      simp only [parseAux, parseStep_func hhdr]
      rw [parse_neutral fun l hl =>
        ⟨lineInert_brief (hbody l hl), lineInert_module (hbody l hl)⟩]
      simp [dictInsert]
    rw [h1]
    rfl
  have hds : dictMem [(nm, b1 :: conts.map capOf)] nm = true := by
    simp [dictMem]
  have hget : dictGetD [(nm, b1 :: conts.map capOf)] nm =
      b1 :: conts.map capOf := by
    simp [dictGetD]
  have hindsp := func_ind_spaces hhdr
  have hblk := blockFor_inert hindsp hins
  have hlen : (blockFor ind (b1 :: conts.map capOf)).length =
      conts.length + 3 := by
    simp [blockFor]
  have hadd : addAux (pre.length + (((conts.length + 3) + (body.length + 1)) + 1))
      [(nm, b1 :: conts.map capOf)] (pre ++ hdr :: body) =
      some (pre ++ hdr ::
        (blockFor ind (b1 :: conts.map capOf) ++ body)) := by
    rw [add_pre pre hpre (((conts.length + 3) + (body.length + 1)) + 1)]
    have h2 : addAux (((conts.length + 3) + (body.length + 1)) + 1)
        [(nm, b1 :: conts.map capOf)] (hdr :: body) =
        some (hdr :: (blockFor ind (b1 :: conts.map capOf) ++ body)) := by
      rw [addAux_cons, addStep_func hhdr hds, hget, ← hlen]
      rw [add_pre (blockFor ind (b1 :: conts.map capOf)) hblk (body.length + 1)]
      rw [addAux_inert hbody (body.length + 1) (by omega)]
      simp
    rw [h2]
    simp
  rw [convA_ok hparse, addAux_mono (by omega : _ ≤ fuel) hadd]
  rfl

theorem family_convB (pre conts body : List Line) (briefL hdr : Line)
    (b1 : Txt) (ind : List Char) (nm : Txt) (fuel : Nat)
    (hpre : ∀ l ∈ pre, lineInert l)
    (hbr : briefM briefL = some b1)
    (hconts : ∀ l ∈ conts, contLike l)
    (hhdr : funcM hdr = some (ind, nm))
    (hbody : ∀ l ∈ body, lineInert l)
    (hins : ∀ c ∈ b1 :: conts.map capOf,
      lineInert (ind ++ indentUnit ++ c ++ nlChar))
    (hf : pre.length + conts.length + body.length + 5 ≤ fuel) :
    convB fuel (pre ++ briefL :: (conts ++ hdr :: body)) =
      some (.ok (pre ++ hdr ::
        (blockFor ind (b1 :: conts.map capOf) ++ body))) := by
  have hindsp := func_ind_spaces hhdr
  have hblk := blockFor_inert hindsp hins
  have hprops := func_props hhdr
  have hdec : decoratorB hdr = false := hprops.2.2.2.2.1
  have hinner : innerB pre.reverse (conts ++ hdr :: body) [b1] =
      .ok (pre.reverse, hdr ::
        (blockFor ind (b1 :: conts.map capOf) ++ body)) := by
    rw [inner_conts hconts]
    simp only [innerB, hdec, Bool.false_eq_true, if_false, hhdr]
    simp
  have hlen : (blockFor ind (b1 :: conts.map capOf)).length =
      conts.length + 3 := by
    simp [blockFor]
  have hlen2 : (blockFor ind (b1 :: conts.map capOf) ++ body).length =
      (conts.length + 3) + body.length := by
    rw [List.length_append, hlen]
  have hstart2 : ∀ l ∈ blockFor ind (b1 :: conts.map capOf) ++ body,
      doxygenStartM l = none := by
    intro l hl
    rcases List.mem_append.mp hl with hb | hb
    · exact (hblk l hb).1
    · exact (hbody l hb).1
  have hlt2 : (blockFor ind (b1 :: conts.map capOf) ++ body).length <
      ((conts.length + 3) + body.length) + 1 := by
    omega
  have hmain : outerB (pre.length + ((((conts.length + 3) + body.length) + 1) + 1))
      [] (pre ++ briefL :: (conts ++ hdr :: body)) =
      some (.ok (pre ++ hdr ::
        (blockFor ind (b1 :: conts.map capOf) ++ body))) := by
    rw [outer_pre pre (fun l hl => (hpre l hl).1) _]
    simp only [List.append_nil]
    rw [outerB_start_step (((conts.length + 3) + body.length) + 1)
      (brief_start hbr) hinner]
    rw [outer_neutral (((conts.length + 3) + body.length) + 1) hstart2 hlt2]
    simp
  exact outerB_mono (by omega) hmain

/-! ## Concrete lines used by witnesses and counterexamples -/

def lineCode : Line := "x = 1\n".toList
def lineBriefX : Line := "## @brief x\n".toList
def lineBriefZ : Line := "## @brief z\n".toList
def lineContY : Line := "#  y\n".toList
def lineDefF : Line := "def f():\n".toList
def lineDefFa : Line := "    def f(a):\n".toList
def lineDecor : Line := "    @staticmethod\n".toList
def lineHashX : Line := "# x\n".toList

/-! ## Claims -/

/-- C2 (confirmed): for every input line sequence in which no line
matches an annotation-start pattern, both Design A (`convert`) and
Design B (`complete_convert`) return the input unchanged. -/
theorem claim_C2 (lines : List Line) (fuel : Nat)
    (h : ∀ l ∈ lines, doxygenStartM l = none)
    (hf : lines.length < fuel) :
    convA fuel lines = some (.ok lines) ∧
    convB fuel lines = some (.ok lines) := by
  constructor
  · have hparse : parseFile lines = .ok ([], lines) :=
      parse_neutral fun l hl =>
        ⟨start_none_brief (h l hl), start_none_module (h l hl)⟩
    rw [convA_ok hparse, addAux_nilDict fuel hf]
    rfl
  · unfold convB
    have h2 := @outer_neutral lines ([] : List Line) fuel h hf
    simpa using h2

/-- C2 witness: a plain assignment line matches no start pattern and
passes through both designs unchanged. -/
theorem claim_C2_witness :
    (∀ l ∈ [lineCode], doxygenStartM l = none) ∧ [lineCode].length < 2 ∧
    convA 2 [lineCode] = some (.ok [lineCode]) ∧
    convB 2 [lineCode] = some (.ok [lineCode]) :=
  ⟨by decide, by decide, claim_C2 [lineCode] 2 (by decide) (by decide)⟩

/-- C3 (confirmed): a decorator line seen while inside a block is
emitted unchanged with the state untouched by `__parse_file`, is walked
over by `complete_convert`'s inner loop without entering the buffer,
and pass 2 / the outer loop only ever extend the line sequence, so
every passed-through line survives to the output in its original
relative order. -/
theorem claim_C3 (l : Line) (hdec : decoratorB l = true) :
    (∀ temp ds, parseStep l true temp ds = .ok (true, temp, ds, [l])) ∧
    (∀ done todo dox, innerB done (l :: todo) dox = innerB (l :: done) todo dox) ∧
    (∀ fuel ds code out, addAux fuel ds code = some out → code.Sublist out) ∧
    (∀ fuel done todo out, outerB fuel done todo = some (.ok out) →
      done.reverse.Sublist out) := by
  refine ⟨fun temp ds => parseStep_decorator hdec,
    fun done todo dox => ?_,
    fun fuel ds code out h => addAux_sublist h,
    fun fuel done todo out h => outerB_sublist h⟩
  rw [innerB, if_pos hdec]

/-- C3 witness: the decorator line of the example input. -/
theorem claim_C3_witness :
    decoratorB lineDecor = true ∧
    parseStep lineDecor true [] [] = .ok (true, [], [], [lineDecor]) :=
  ⟨by decide, (claim_C3 lineDecor (by decide)).1 [] []⟩

/-- C7 (confirmed): in Design A, a final block that reaches end of
input with the flag still up is silently discarded: its captured
content appears nowhere in the output and no error is raised. -/
theorem claim_C7 (pre conts : List Line) (briefL : Line) (cap : Txt)
    (fuel : Nat)
    (hpre : ∀ l ∈ pre, lineInert l)
    (hbr : briefM briefL = some cap)
    (hconts : ∀ l ∈ conts, contLike l)
    (hf : pre.length < fuel) :
    convA fuel (pre ++ briefL :: conts) = some (.ok pre) := by
  have hparse : parseFile (pre ++ briefL :: conts) = .ok ([], pre) := by
    unfold parseFile
    rw [parse_pre fun l hl =>
      ⟨lineInert_brief (hpre l hl), lineInert_module (hpre l hl)⟩]
    have h1 : parseAux (briefL :: conts) false [] [] = .ok ([], []) := by
      simp only [parseAux, parseStep_brief hbr]
      have h2 : parseAux (conts ++ []) true ([] ++ [cap]) [] = .ok ([], []) := by
        rw [parse_conts hconts]
        rfl
      rw [List.append_nil] at h2
      rw [h2]
      rfl
    rw [h1]
    simp [Except.map]
  rw [convA_ok hparse, addAux_nilDict fuel hf]
  rfl

/-- C7 witness: a trailing block after one code line is dropped. -/
theorem claim_C7_witness :
    briefM lineBriefX = some ['x'] ∧ (∀ l ∈ [lineContY], contLike l) ∧
    convA 2 ([lineCode] ++ lineBriefX :: [lineContY]) = some (.ok [lineCode]) :=
  ⟨by decide, by decide,
    claim_C7 [lineCode] [lineContY] lineBriefX ['x'] 2 (by decide) (by decide)
      (by decide) (by decide)⟩

/-- C8 (confirmed): a line inside a block that matches none of the
decorator, header, or blank classifiers and fails the continuation
pattern makes both implementations raise the unhandled
lookup/indexing fault rather than reporting a structured error. -/
theorem claim_C8 (l briefL : Line) (cap : Txt) (temp : List Txt) (ds : Dict)
    (done todo : List Line) (dox : List Txt) (fuel : Nat)
    (hfm : funcM l = none) (hcm : classM l = none) (hbl : l ≠ blankLine)
    (hdm : decoratorB l = false) (hom : otherM l = none)
    (hbr : briefM briefL = some cap) :
    parseStep l true temp ds = .error .matchFail ∧
    innerB done (l :: todo) dox = .error .matchFail ∧
    convA fuel [briefL, l] = some (.error .matchFail) ∧
    convB (fuel + 1) [briefL, l] = some (.error .matchFail) := by
  refine ⟨parseStep_fail hfm hcm hbl hdm hom, ?_, ?_, ?_⟩
  · simp only [innerB, hdm, Bool.false_eq_true, if_false, hfm, hcm,
      if_neg hbl, hom]
  · have hparse : parseFile [briefL, l] = .error .matchFail := by
      unfold parseFile
      simp only [parseAux, parseStep_brief hbr,
        parseStep_fail hfm hcm hbl hdm hom]
    rw [convA_err hparse]
  · have hinn : innerB ([] : List Line) [l] [cap] = .error .matchFail := by
      simp only [innerB, hdm, Bool.false_eq_true, if_false, hfm, hcm,
        if_neg hbl, hom]
    unfold convB
    simp only [outerB, brief_start hbr, hinn]

/-- C8 witness: a `# x` line (single space after the marker) fails the
continuation pattern, and a block opened right before it faults. -/
theorem claim_C8_witness :
    otherM lineHashX = none ∧ decoratorB lineHashX = false ∧
    parseStep lineHashX true [] [] = .error .matchFail ∧
    convA 1 [lineBriefX, lineHashX] = some (.error .matchFail) ∧
    convB 2 [lineBriefX, lineHashX] = some (.error .matchFail) := by
  have h := claim_C8 lineHashX lineBriefX ['x'] [] [] [] [] [] 1
    (by decide) (by decide) (by decide) (by decide) (by decide) (by decide)
  exact ⟨by decide, by decide, h.1, h.2.2.1, h.2.2.2⟩

/-- C10 (confirmed): Design B's inner scan is partial: a start line
that is never followed by a terminating line reaches the end of the
list with the flag still set, and the out-of-range branch (the
`IndexError` of `code[line_idx]`) is reached. -/
theorem claim_C10 : convB 5 [lineBriefX] = some (.error .outOfRange) := rfl

/-! ## C1: equivalence of the two designs -/

def c1Input : List Line :=
  [ "#!x\n".toList, "\n".toList, "## @package m\n".toList,
    "#  d\n".toList, "\n".toList ]

def c1OutA : List Line :=
  [ "#!x\n".toList, "\n".toList, "\"\"\"\n".toList, "d\n".toList,
    "\"\"\"\n".toList, "\n".toList ]

def c1OutB : List Line :=
  [ "#!x\n".toList, "\n".toList, "\"\"\"\n".toList, "m\n".toList,
    "d\n".toList, "\"\"\"\n".toList, "\n".toList ]

/-- C1 counterexample: on a well-formed input with a module-level
block (the shape of the repository's own example file), the designs
disagree: Design A's `MODULE` branch drops the `## @package m` capture
while Design B's `DOXYGEN_START` keeps it as the first content line,
so `complete_convert` emits one line more than `convert`. -/
theorem claim_C1_counterexample :
    convA 20 c1Input = some (.ok c1OutA) ∧
    convB 20 c1Input = some (.ok c1OutB) ∧
    c1OutA ≠ c1OutB :=
  ⟨rfl, rfl, by decide⟩

/-- C1 (corrected, amended): the two designs produce the same output on
well-formed inputs whose single annotation block starts with
`## @brief`, runs through continuation lines, and is terminated by a
function header — i.e. excluding module-level (`@package`-style)
blocks, on which the captured content differs. -/
theorem claim_C1_amended (pre conts body : List Line) (briefL hdr : Line)
    (b1 : Txt) (ind : List Char) (nm : Txt) (fuel : Nat)
    (hpre : ∀ l ∈ pre, lineInert l)
    (hbr : briefM briefL = some b1)
    (hconts : ∀ l ∈ conts, contLike l)
    (hhdr : funcM hdr = some (ind, nm))
    (hbody : ∀ l ∈ body, lineInert l)
    (hins : ∀ c ∈ b1 :: conts.map capOf,
      lineInert (ind ++ indentUnit ++ c ++ nlChar))
    (hf : pre.length + conts.length + body.length + 5 ≤ fuel) :
    convA fuel (pre ++ briefL :: (conts ++ hdr :: body)) =
      convB fuel (pre ++ briefL :: (conts ++ hdr :: body)) := by
  rw [family_convA pre conts body briefL hdr b1 ind nm fuel hpre hbr hconts
      hhdr hbody hins hf,
    family_convB pre conts body briefL hdr b1 ind nm fuel hpre hbr hconts
      hhdr hbody hins hf]

/-- C1 witness: both designs agree on a concrete single-block input. -/
theorem claim_C1_witness :
    convA 8 ([lineCode] ++ lineBriefX :: ([lineContY] ++ lineDefF :: [lineCode])) =
      convB 8 ([lineCode] ++ lineBriefX :: ([lineContY] ++ lineDefF :: [lineCode])) :=
  claim_C1_amended [lineCode] [lineContY] [lineCode] lineBriefX lineDefF
    ['x'] [] ['f'] 8 (by decide) (by decide) (by decide) (by decide)
    (by decide) (by decide) (by decide)

/-! ## C4: the inserted function block -/

/-- C4 (confirmed): a function header preceded by an annotation block
of two content lines yields, contiguously: the header, an opening
marker indented one indent unit (four spaces) deeper than the header,
the two content lines at that indentation, a closing marker at that
indentation, and then the original body — in both designs. -/
theorem claim_C4 (pre body : List Line) (briefL contL hdr : Line)
    (b1 : Txt) (ind : List Char) (nm : Txt) (fuel : Nat)
    (hpre : ∀ l ∈ pre, lineInert l)
    (hbr : briefM briefL = some b1)
    (hct : contLike contL)
    (hhdr : funcM hdr = some (ind, nm))
    (hbody : ∀ l ∈ body, lineInert l)
    (hi1 : lineInert (ind ++ indentUnit ++ b1 ++ nlChar))
    (hi2 : lineInert (ind ++ indentUnit ++ capOf contL ++ nlChar))
    (hf : pre.length + body.length + 6 ≤ fuel) :
    convA fuel (pre ++ briefL :: contL :: hdr :: body) =
      some (.ok (pre ++ hdr ::
        ((ind ++ indentUnit ++ q3bang ++ nlChar) ::
          (ind ++ indentUnit ++ b1 ++ nlChar) ::
          (ind ++ indentUnit ++ capOf contL ++ nlChar) ::
          (ind ++ indentUnit ++ q3 ++ nlChar) :: body))) ∧
    convB fuel (pre ++ briefL :: contL :: hdr :: body) =
      some (.ok (pre ++ hdr ::
        ((ind ++ indentUnit ++ q3bang ++ nlChar) ::
          (ind ++ indentUnit ++ b1 ++ nlChar) ::
          (ind ++ indentUnit ++ capOf contL ++ nlChar) ::
          (ind ++ indentUnit ++ q3 ++ nlChar) :: body))) := by
  have hconts : ∀ l ∈ [contL], contLike l := by
    intro x hx
    have hx2 : x = contL := by simpa using hx
    rw [hx2]
    exact hct
  have hins : ∀ c ∈ b1 :: [contL].map capOf,
      lineInert (ind ++ indentUnit ++ c ++ nlChar) := by
    intro c hc
    simp only [List.map, List.mem_cons, List.not_mem_nil, or_false] at hc
    rcases hc with rfl | rfl
    · exact hi1
    · exact hi2
  have hA := family_convA pre [contL] body briefL hdr b1 ind nm fuel hpre hbr
    hconts hhdr hbody hins (by simp at hf ⊢; omega)
  have hB := family_convB pre [contL] body briefL hdr b1 ind nm fuel hpre hbr
    hconts hhdr hbody hins (by simp at hf ⊢; omega)
  exact ⟨hA, hB⟩

/-- C4 witness: concrete block of two content lines before `def f():`. -/
theorem claim_C4_witness :
    briefM lineBriefX = some ['x'] ∧ contLike lineContY ∧
    funcM lineDefF = some ([], ['f']) ∧
    (convA 7 ([] ++ lineBriefX :: lineContY :: lineDefF :: [lineCode]) =
      some (.ok ([] ++ lineDefF ::
        ((([] : List Char) ++ indentUnit ++ q3bang ++ nlChar) ::
          (([] : List Char) ++ indentUnit ++ ['x'] ++ nlChar) ::
          (([] : List Char) ++ indentUnit ++ capOf lineContY ++ nlChar) ::
          (([] : List Char) ++ indentUnit ++ q3 ++ nlChar) :: [lineCode]))) ∧
    convB 7 ([] ++ lineBriefX :: lineContY :: lineDefF :: [lineCode]) =
      some (.ok ([] ++ lineDefF ::
        ((([] : List Char) ++ indentUnit ++ q3bang ++ nlChar) ::
          (([] : List Char) ++ indentUnit ++ ['x'] ++ nlChar) ::
          (([] : List Char) ++ indentUnit ++ capOf lineContY ++ nlChar) ::
          (([] : List Char) ++ indentUnit ++ q3 ++ nlChar) :: [lineCode])))) :=
  ⟨by decide, by decide, by decide,
    claim_C4 [] [lineCode] lineBriefX lineContY lineDefF ['x'] [] ['f'] 7
      (by decide) (by decide) (by decide) (by decide) (by decide) (by decide)
      (by decide) (by decide)⟩

/-! ## C6: name collision in Design A -/

/-- C6 (confirmed): in Design A, when two function definitions share
the same captured name, each preceded by its own block, pass 1 maps the
name to the later block only (insert-or-overwrite), and pass 2 inserts
the later block's content after both headers. -/
theorem claim_C6 (briefA briefB hdr1 hdr2 : Line) (a b : Txt)
    (i1 i2 : List Char) (nm : Txt) (body : List Line) (fuel : Nat)
    (ha : briefM briefA = some a) (hb : briefM briefB = some b)
    (h1 : funcM hdr1 = some (i1, nm)) (h2 : funcM hdr2 = some (i2, nm))
    (hbody : ∀ l ∈ body, lineInert l)
    (hiA : lineInert (i1 ++ indentUnit ++ b ++ nlChar))
    (hiB : lineInert (i2 ++ indentUnit ++ b ++ nlChar))
    (hf : body.length + 9 ≤ fuel) :
    parseFile (briefA :: hdr1 :: briefB :: hdr2 :: body) =
      .ok ([(nm, [b])], hdr1 :: hdr2 :: body) ∧
    convA fuel (briefA :: hdr1 :: briefB :: hdr2 :: body) =
      some (.ok (hdr1 ::
        (blockFor i1 [b] ++ (hdr2 :: (blockFor i2 [b] ++ body))))) := by
  have hparse : parseFile (briefA :: hdr1 :: briefB :: hdr2 :: body) =
      .ok ([(nm, [b])], hdr1 :: hdr2 :: body) := by
    unfold parseFile
    simp only [parseAux, parseStep_brief ha, parseStep_func h1,
      parseStep_brief hb, parseStep_func h2]
    rw [parse_neutral fun l hl =>
      ⟨lineInert_brief (hbody l hl), lineInert_module (hbody l hl)⟩]
    simp [dictInsert]
  have hmem : dictMem [(nm, [b])] nm = true := by simp [dictMem]
  have hget : dictGetD [(nm, [b])] nm = [b] := by simp [dictGetD]
  have hblk1 : ∀ l ∈ blockFor i1 [b], lineInert l := by
    apply blockFor_inert (func_ind_spaces h1)
    intro c hc
    have hcb : c = b := by simpa using hc
    rw [hcb]
    exact hiA
  have hblk2 : ∀ l ∈ blockFor i2 [b], lineInert l := by
    apply blockFor_inert (func_ind_spaces h2)
    intro c hc
    have hcb : c = b := by simpa using hc
    rw [hcb]
    exact hiB
  have hlen1 : (blockFor i1 [b]).length = 3 := by simp [blockFor]
  have hlen2 : (blockFor i2 [b]).length = 3 := by simp [blockFor]
  have h3 : addAux ((3 + (body.length + 1)) + 1) [(nm, [b])] (hdr2 :: body) =
      some (hdr2 :: (blockFor i2 [b] ++ body)) := by
    rw [addAux_cons, addStep_func h2 hmem, hget, ← hlen2]
    rw [add_pre (blockFor i2 [b]) hblk2 (body.length + 1)]
    rw [addAux_inert hbody (body.length + 1) (by omega)]
    simp
  have hadd : addAux ((3 + ((3 + (body.length + 1)) + 1)) + 1) [(nm, [b])]
      (hdr1 :: hdr2 :: body) =
      some (hdr1 :: (blockFor i1 [b] ++ (hdr2 :: (blockFor i2 [b] ++ body)))) := by
    rw [addAux_cons, addStep_func h1 hmem, hget]
    nth_rewrite 1 [← hlen1]
    rw [add_pre (blockFor i1 [b]) hblk1 ((3 + (body.length + 1)) + 1)]
    rw [h3]
    simp
  refine ⟨hparse, ?_⟩
  rw [convA_ok hparse, addAux_mono (by omega) hadd]
  rfl

/-- C6 witness: two `def f` headers with distinct block contents: the
table holds the later content `z` and both insertion sites use it. -/
theorem claim_C6_witness :
    funcM lineDefF = some ([], ['f']) ∧ funcM lineDefFa = some (indentUnit, ['f']) ∧
    briefM lineBriefX = some ['x'] ∧ briefM lineBriefZ = some ['z'] ∧
    (parseFile (lineBriefX :: lineDefF :: lineBriefZ :: lineDefFa :: [lineCode]) =
      .ok ([(['f'], [['z']])], lineDefF :: lineDefFa :: [lineCode]) ∧
    convA 10 (lineBriefX :: lineDefF :: lineBriefZ :: lineDefFa :: [lineCode]) =
      some (.ok (lineDefF :: (blockFor [] [['z']] ++
        (lineDefFa :: (blockFor indentUnit [['z']] ++ [lineCode])))))) :=
  ⟨by decide, by decide, by decide, by decide,
    claim_C6 lineBriefX lineBriefZ lineDefF lineDefFa ['x'] ['z'] []
      indentUnit ['f'] [lineCode] 10 (by decide) (by decide) (by decide)
      (by decide) (by decide) (by decide) (by decide) (by decide)⟩

/-! ## C9: rerunning the transformation -/

def c9Input : List Line :=
  [ "## @brief ## @brief y\n".toList, "def f():\n".toList ]

def lineInsBrief : Line := "    ## @brief y\n".toList

def c9Out : List Line :=
  [ "def f():\n".toList, "    \"\"\"!\n".toList, lineInsBrief,
    "    \"\"\"\n".toList ]

/-- C9 counterexample: a captured content line can itself match the
annotation-start classifier once re-inserted.  On this input the first
run succeeds, but the inserted content line `    ## @brief y` matches
`DOXYGEN_START` (and `BRIEF`), so a second run does not leave the
literal block unchanged — it faults on the closing marker. -/
theorem claim_C9_counterexample :
    convA 20 c9Input = some (.ok c9Out) ∧
    doxygenStartM lineInsBrief = some ['y'] ∧
    convA 20 c9Out = some (.error .matchFail) ∧
    convB 20 c9Out = some (.error .matchFail) :=
  ⟨rfl, rfl, rfl, rfl⟩

/-- C9 (corrected, amended): the inserted opening and closing markers
match no classifier; when additionally no inserted content line matches
a classifier, a second run of either design returns the converted
output unchanged. -/
theorem claim_C9_amended (pre body : List Line) (hdr : Line) (bufs : List Txt)
    (ind : List Char) (nm : Txt) (fuel : Nat)
    (hpre : ∀ l ∈ pre, lineInert l)
    (hhdr : funcM hdr = some (ind, nm))
    (hbody : ∀ l ∈ body, lineInert l)
    (hins : ∀ c ∈ bufs, lineInert (ind ++ indentUnit ++ c ++ nlChar))
    (hf : pre.length + bufs.length + body.length + 3 < fuel) :
    convA fuel (pre ++ hdr :: (blockFor ind bufs ++ body)) =
      some (.ok (pre ++ hdr :: (blockFor ind bufs ++ body))) ∧
    convB fuel (pre ++ hdr :: (blockFor ind bufs ++ body)) =
      some (.ok (pre ++ hdr :: (blockFor ind bufs ++ body))) := by
  have hblk := blockFor_inert (func_ind_spaces hhdr) hins
  have hprops := func_props hhdr
  have hall : ∀ l ∈ pre ++ hdr :: (blockFor ind bufs ++ body),
      briefM l = none ∧ moduleM l = none := by
    intro l hl
    rcases List.mem_append.mp hl with hp | hp
    · exact ⟨lineInert_brief (hpre l hp), lineInert_module (hpre l hp)⟩
    · rcases List.mem_cons.mp hp with rfl | hp2
      · exact ⟨hprops.1, hprops.2.1⟩
      · rcases List.mem_append.mp hp2 with hx | hx
        · exact ⟨lineInert_brief (hblk l hx), lineInert_module (hblk l hx)⟩
        · exact ⟨lineInert_brief (hbody l hx), lineInert_module (hbody l hx)⟩
  have hstart : ∀ l ∈ pre ++ hdr :: (blockFor ind bufs ++ body),
      doxygenStartM l = none := by
    intro l hl
    rcases List.mem_append.mp hl with hp | hp
    · exact (hpre l hp).1
    · rcases List.mem_cons.mp hp with rfl | hp2
      · exact hprops.2.2.1
      · rcases List.mem_append.mp hp2 with hx | hx
        · exact (hblk l hx).1
        · exact (hbody l hx).1
  have hlenO : (pre ++ hdr :: (blockFor ind bufs ++ body)).length =
      pre.length + bufs.length + body.length + 3 := by
    simp only [List.length_append, List.length_cons, blockFor,
      List.length_map, List.length_nil]
    omega
  constructor
  · have hparse : parseFile (pre ++ hdr :: (blockFor ind bufs ++ body)) =
        .ok ([], pre ++ hdr :: (blockFor ind bufs ++ body)) :=
      parse_neutral hall
    rw [convA_ok hparse, addAux_nilDict fuel (by omega)]
    rfl
  · unfold convB
    have h2 := @outer_neutral (pre ++ hdr :: (blockFor ind bufs ++ body))
      ([] : List Line) fuel hstart (by omega)
    simpa using h2

/-- C9 witness: a concrete converted output reruns to itself. -/
theorem claim_C9_witness :
    convA 5 ([] ++ lineDefF :: (blockFor [] [['y']] ++ [])) =
      some (.ok ([] ++ lineDefF :: (blockFor [] [['y']] ++ []))) ∧
    convB 5 ([] ++ lineDefF :: (blockFor [] [['y']] ++ [])) =
      some (.ok ([] ++ lineDefF :: (blockFor [] [['y']] ++ []))) :=
  claim_C9_amended [] [] lineDefF [['y']] [] ['f'] 5 (by decide) (by decide)
    (by decide) (by decide) (by decide)

/-! ## C5: the module block around the shebang -/

/-- C5 counterexample: `__add_docstrings` inserts the module block at
`line_idx + 2`, i.e. after the blank separator that follows the
shebang, not between the shebang and the blank as the claim states:
in the output the line after the shebang is still the blank line, and
the opening marker only comes third. -/
theorem claim_C5_counterexample :
    convA 20 c1Input = some (.ok c1OutA) ∧
    c1OutA.get? 1 = some blankLine ∧
    c1OutA.get? 2 = some (q3 ++ nlChar) ∧
    blankLine ≠ q3 ++ nlChar :=
  ⟨rfl, rfl, rfl, by decide⟩

def lineShebangX : Line := "#!x\n".toList
def linePkgM : Line := "## @package m\n".toList
def lineContD : Line := "#  d\n".toList

/-- C5 (corrected, amended): for a shebang line, one blank separator
line, and a module-level annotation block terminated by a blank line,
the output places the module literal block directly after the blank
separator (one line below the shebang), and the block's terminating
blank line is reproduced after the inserted block.  Design A's block
carries only the continuation captures; Design B's block additionally
starts with the `@package` capture. -/
theorem claim_C5_amended (sb pkgL : Line) (p : Txt) (conts post : List Line)
    (fuel : Nat)
    (hsb : shebangB sb = true)
    (hpkg : moduleM pkgL = some p)
    (hconts : ∀ l ∈ conts, contLike l)
    (hpost : ∀ l ∈ post, lineInert l)
    (hinsA : ∀ c ∈ conts.map capOf, lineInert (c ++ nlChar))
    (hinsB : lineInert (p ++ nlChar))
    (hf : conts.length + post.length + 8 ≤ fuel) :
    convA fuel (sb :: blankLine :: pkgL :: (conts ++ blankLine :: post)) =
      some (.ok (sb :: blankLine ::
        (modBlock (conts.map capOf) ++ blankLine :: post))) ∧
    convB fuel (sb :: blankLine :: pkgL :: (conts ++ blankLine :: post)) =
      some (.ok (sb :: blankLine ::
        (modBlock (p :: conts.map capOf) ++ blankLine :: post))) := by
  have hsbp := shebang_props hsb
  have hbl1 : briefM blankLine = none := by decide
  have hbl2 : moduleM blankLine = none := by decide
  constructor
  · have hparse : parseFile (sb :: blankLine :: pkgL ::
        (conts ++ blankLine :: post)) =
        .ok ([(moduleKey, conts.map capOf)],
          sb :: blankLine :: blankLine :: post) := by
      unfold parseFile
      simp only [parseAux, parseStep_pass hsbp.1 hsbp.2.1,
        parseStep_pass hbl1 hbl2,
        parseStep_module (module_not_brief hpkg) hpkg]
      rw [parse_conts hconts]
      simp only [parseAux, parseStep_blank]
      rw [parse_neutral fun l hl =>
        ⟨lineInert_brief (hpost l hl), lineInert_module (hpost l hl)⟩]
      simp [dictInsert]
    have hmem : dictMem [(moduleKey, conts.map capOf)] moduleKey = true := by
      simp [dictMem]
    have hget : dictGetD [(moduleKey, conts.map capOf)] moduleKey =
        conts.map capOf := by
      simp [dictGetD]
    have hrest : (blankLine :: blankLine :: post).take 1 ++
        modBlock (conts.map capOf) ++ (blankLine :: blankLine :: post).drop 1 =
        blankLine :: (modBlock (conts.map capOf) ++ blankLine :: post) := by
      simp
    have hinert : ∀ l ∈ blankLine ::
        (modBlock (conts.map capOf) ++ blankLine :: post), lineInert l := by
      intro l hl
      rcases List.mem_cons.mp hl with rfl | hl2
      · decide
      rcases List.mem_append.mp hl2 with hm | hp2
      · exact modBlock_inert hinsA l hm
      rcases List.mem_cons.mp hp2 with rfl | hp3
      · decide
      · exact hpost l hp3
    have hlenM : (blankLine ::
        (modBlock (conts.map capOf) ++ blankLine :: post)).length =
        conts.length + post.length + 4 := by
      simp only [List.length_cons, List.length_append, modBlock,
        List.length_map, List.length_nil]
      omega
    have hadd : addAux ((conts.length + post.length + 4 + 1) + 1)
        [(moduleKey, conts.map capOf)] (sb :: blankLine :: blankLine :: post) =
        some (sb :: blankLine ::
          (modBlock (conts.map capOf) ++ blankLine :: post)) := by
      rw [addAux_cons, addStep_shebang hsb hmem, hget, hrest]
      rw [addAux_inert hinert (conts.length + post.length + 4 + 1) (by omega)]
      rfl
    rw [convA_ok hparse, addAux_mono (by omega) hadd]
    rfl
  · have hpre2 : ∀ l ∈ ([sb, blankLine] : List Line),
        doxygenStartM l = none := by
      intro l hl
      rcases List.mem_cons.mp hl with rfl | hl2
      · exact hsbp.2.2.1
      rcases List.mem_cons.mp hl2 with rfl | hl3
      · decide
      · exact absurd hl3 (by simp)
    have hdecb : decoratorB blankLine = false := by decide
    have hfb : funcM blankLine = none := by decide
    have hcb : classM blankLine = none := by decide
    have hinner : innerB [blankLine, sb] (conts ++ blankLine :: post) [p] =
        .ok ([blankLine, sb],
          (q3 ++ nlChar) :: (((p :: conts.map capOf).map fun c => c ++ nlChar) ++
            ([q3 ++ nlChar] ++ (blankLine :: post)))) := by
      rw [inner_conts hconts]
      simp only [innerB, hdecb, Bool.false_eq_true, if_false, hfb, hcb]
      simp [modBlock]
    have hstart2 : ∀ l ∈ ((p :: conts.map capOf).map fun c => c ++ nlChar) ++
        ([q3 ++ nlChar] ++ (blankLine :: post)), doxygenStartM l = none := by
      intro l hl
      rcases List.mem_append.mp hl with hm | hr
      · obtain ⟨c, hc, rfl⟩ := List.mem_map.mp hm
        rcases List.mem_cons.mp hc with rfl | hc2
        · exact hinsB.1
        · exact (hinsA _ hc2).1
      rcases List.mem_append.mp hr with hq | hbp
      · have hq2 : l = q3 ++ nlChar := by simpa using hq
        rw [hq2]
        decide
      rcases List.mem_cons.mp hbp with rfl | hp3
      · decide
      · exact (hpost l hp3).1
    have hlenT : (((p :: conts.map capOf).map fun c => c ++ nlChar) ++
        ([q3 ++ nlChar] ++ (blankLine :: post))).length =
        conts.length + post.length + 3 := by
      simp only [List.length_append, List.length_map, List.length_cons,
        List.length_nil]
      omega
    have h2len : ([sb, blankLine] : List Line).length = 2 := rfl
    have hmainB : outerB (([sb, blankLine] : List Line).length +
        (((conts.length + post.length + 3) + 1) + 1)) []
        (sb :: blankLine :: pkgL :: (conts ++ blankLine :: post)) =
        some (.ok (sb :: blankLine ::
          (modBlock (p :: conts.map capOf) ++ blankLine :: post))) := by
      have e2 : sb :: blankLine :: pkgL :: (conts ++ blankLine :: post) =
          [sb, blankLine] ++ (pkgL :: (conts ++ blankLine :: post)) := rfl
      rw [e2]
      rw [outer_pre [sb, blankLine] hpre2 (((conts.length + post.length + 3) + 1) + 1)]
      have e4 : ([sb, blankLine] : List Line).reverse ++ [] = [blankLine, sb] := by
        simp
      rw [e4]
      rw [outerB_start_step ((conts.length + post.length + 3) + 1)
        (module_start hpkg) hinner]
      rw [outer_neutral ((conts.length + post.length + 3) + 1) hstart2 (by omega)]
      simp [modBlock]
    unfold convB
    exact outerB_mono (by omega) hmainB

/-- C5 witness: a concrete shebang, blank, and module block. -/
theorem claim_C5_witness :
    shebangB lineShebangX = true ∧ moduleM linePkgM = some ['m'] ∧
    (convA 10 (lineShebangX :: blankLine :: linePkgM ::
        ([lineContD] ++ blankLine :: [lineCode])) =
      some (.ok (lineShebangX :: blankLine ::
        (modBlock ([lineContD].map capOf) ++ blankLine :: [lineCode]))) ∧
    convB 10 (lineShebangX :: blankLine :: linePkgM ::
        ([lineContD] ++ blankLine :: [lineCode])) =
      some (.ok (lineShebangX :: blankLine ::
        (modBlock (['m'] :: [lineContD].map capOf) ++ blankLine :: [lineCode])))) :=
  ⟨by decide, by decide,
    claim_C5_amended lineShebangX linePkgM ['m'] [lineContD] [lineCode] 10
      (by decide) (by decide) (by decide) (by decide) (by decide) (by decide)
      (by decide)⟩

end DoxConv
